import Mathlib

/-!
Shallow embedding of the decorator utilities of the repository
`angular-decorators-NG-Kenya-2025` (files `src/decorators.ts`,
`src/override-functionality.ts` and the unnamed lesson/demo files), together
with proofs of the behavioural properties stated in the specification.

Conventions of the embedding:
* JavaScript's single-threaded timer semantics is modelled by a trace machine:
  a debounced method is a state `Option (Nat × args)` holding the single
  pending `setTimeout` handle (fire time and captured arguments), and a run
  processes a chronologically ordered list of wrapper calls, emitting the
  invocations of the original operation that actually fire.
* `console.log` lines and invocations of a captured original method are
  recorded as explicit events, so "the original is invoked exactly once with
  these arguments" is a statement about the emitted event list.
* Memoization `Map`s are association lists over `String` keys
  (`JSON.stringify` is an abstract serialization function supplied as a
  parameter).
-/

namespace Decorators

/-- Events observable while a wrapped method executes: a `console.log` line,
or an invocation of the captured original method with a `this` binding of
type `ι` and an argument list of type `α`. -/
inductive MEv (ι α : Type) where
  | log (msg : String)
  | origCall (self : ι) (args : α)
  deriving DecidableEq

/-- Instrument a pure original method `f` so that running it records the
single `origCall` event carrying its `this` binding and arguments. -/
def instrument {ι α ρ : Type} (f : ι → α → ρ) : ι → α → List (MEv ι α) × ρ :=
  fun self args => ([MEv.origCall self args], f self args)

/-- The original-method invocations contained in an event list. -/
def origCalls {ι α : Type} (evs : List (MEv ι α)) : List (ι × α) :=
  evs.filterMap fun e =>
    match e with
    | MEv.log _ => none
    | MEv.origCall s a => some (s, a)

/-- Embedding of `LogMethod` (src/decorators.ts lines 45-51): the replacement
method logs one line and then forwards to `context.value` with the identical
`this` binding and argument list, returning its result. -/
def LogMethod {ι α ρ : Type} (methodName : String)
    (contextValue : ι → α → List (MEv ι α) × ρ) :
    ι → α → List (MEv ι α) × ρ :=
  fun self args =>
    let line := MEv.log ("[LogMethod] " ++ methodName ++ " called with args")
    let r := contextValue self args
    (line :: r.1, r.2)

/-- Embedding of `MeasureTime` (src/decorators.ts lines 68-81): the
initializer-installed replacement captures `this[methodName]` as
`originalMethod`, and on each call reads `performance.now()`, forwards to the
captured method with the identical `this` binding and argument list, reads
`performance.now()` again, logs the delta and returns the result.  The two
clock readings only feed the printed message, so they are folded into the
logged line. -/
def MeasureTime {ι α ρ : Type} (methodName : String)
    (originalMethod : ι → α → List (MEv ι α) × ρ) :
    ι → α → List (MEv ι α) × ρ :=
  fun self args =>
    let r := originalMethod self args
    (r.1 ++ [MEv.log ("[MeasureTime] " ++ methodName ++ " took some ms")], r.2)

/-!
## Debounce wrappers

`DebounceLegacy` (src/unnamed/part_000 lines 1-16) and the new-API `Debounce`
(src/unnamed/part_001 lines 1-13) install a replacement method that does
`clearTimeout(timeoutId); timeoutId = setTimeout(fire, ms)` where `fire`
invokes the captured original with the captured `this` and arguments (the
new-API variant also logs a line inside the callback).  The single closure
variable `timeoutId` is created once when the decorator runs.

The trace machine below processes a chronologically ordered call list
`(time, args)`.  A pending timer `(ft, pa)` fires (emitting
`(ft, pa, f pa)`) before a later call at time `t` whenever `ft ≤ t`;
otherwise the call's `clearTimeout` cancels it.  Every call schedules a new
timer at `t + ms` with its own arguments.  At the end of the trace the
remaining pending timer, if any, fires.
-/

/-- Trace semantics of the replacement method installed by `DebounceLegacy`
(src/unnamed/part_000 lines 7-12). -/
def DebounceLegacyRun {α ρ : Type} (ms : Nat) (f : α → ρ)
    (pending : Option (Nat × α)) : List (Nat × α) → List (Nat × α × ρ)
  | [] =>
    match pending with
    | none => []
    | some (ft, pa) => [(ft, pa, f pa)]
  | (t, a) :: rest =>
    match pending with
    | none => DebounceLegacyRun ms f (some (t + ms, a)) rest
    | some (ft, pa) =>
      if ft ≤ t then
        (ft, pa, f pa) :: DebounceLegacyRun ms f (some (t + ms, a)) rest
      else
        DebounceLegacyRun ms f (some (t + ms, a)) rest

/-- Trace semantics of the replacement method returned by the new-API
`Debounce` (src/unnamed/part_001 lines 6-11).  Its timer callback logs a line
and then calls `context.value`; the timer logic is identical to the legacy
variant. -/
def DebounceRun {α ρ : Type} (ms : Nat) (f : α → ρ)
    (pending : Option (Nat × α)) : List (Nat × α) → List (Nat × α × ρ)
  | [] =>
    match pending with
    | none => []
    | some (ft, pa) => [(ft, pa, f pa)]
  | (t, a) :: rest =>
    match pending with
    | none => DebounceRun ms f (some (t + ms, a)) rest
    | some (ft, pa) =>
      if ft ≤ t then
        (ft, pa, f pa) :: DebounceRun ms f (some (t + ms, a)) rest
      else
        DebounceRun ms f (some (t + ms, a)) rest

/-- The two debounce embeddings share their timer logic verbatim. -/
theorem DebounceRun_eq_legacy {α ρ : Type} (ms : Nat) (f : α → ρ)
    (pending : Option (Nat × α)) (calls : List (Nat × α)) :
    DebounceRun ms f pending calls = DebounceLegacyRun ms f pending calls := by
  induction calls generalizing pending with
  | nil => cases pending with
    | none => rfl
    | some p => rfl
  | cons c rest ih =>
    obtain ⟨t, a⟩ := c
    cases pending with
    | none => simpa [DebounceRun, DebounceLegacyRun] using ih (some (t + ms, a))
    | some p =>
      obtain ⟨ft, pa⟩ := p
      by_cases hft : ft ≤ t
      · simp only [DebounceRun, DebounceLegacyRun, if_pos hft]
        exact congrArg _ (ih (some (t + ms, a)))
      · simpa [DebounceRun, DebounceLegacyRun, if_neg hft] using
          ih (some (t + ms, a))

/-- If every remaining call happens no later than `tl`, strictly before the
current pending fire time, and within `ms` of `tl`, then every call cancels
the pending timer, and the run fires exactly once: the last scheduled timer
(the initial pending one when the call list is empty). -/
theorem DebounceLegacyRun_cancel_chain {α ρ : Type} (ms : Nat) (f : α → ρ)
    (tl : Nat) :
    ∀ (calls : List (Nat × α)) (ft : Nat) (pa : α),
      (∀ c ∈ calls, c.1 ≤ tl) → tl < ft → (∀ c ∈ calls, tl < c.1 + ms) →
      DebounceLegacyRun ms f (some (ft, pa)) calls =
        [match calls.getLast? with
         | none => (ft, pa, f pa)
         | some (t, a) => (t + ms, a, f a)] := by
  intro calls
  induction calls with
  | nil => intro ft pa _ _ _; rfl
  | cons c rest ih =>
    intro ft pa hle hft hms
    obtain ⟨t, a⟩ := c
    have ht : t ≤ tl := hle (t, a) (List.mem_cons_self _ _)
    have hcancel : ¬ ft ≤ t := by omega
    have hnew : tl < t + ms := hms (t, a) (List.mem_cons_self _ _)
    have hrest :
        DebounceLegacyRun ms f (some (t + ms, a)) rest =
          [match rest.getLast? with
           | none => (t + ms, a, f a)
           | some (t', a') => (t' + ms, a', f a')] :=
      ih (t + ms) a (fun c hc => hle c (List.mem_cons_of_mem _ hc)) hnew
        (fun c hc => hms c (List.mem_cons_of_mem _ hc))
    rw [DebounceLegacyRun, if_neg hcancel, hrest]
    cases hr : rest.getLast? with
    | none =>
      have : rest = [] := List.getLast?_eq_none_iff.mp hr
      subst this
      rfl
    | some c' =>
      obtain ⟨t', a'⟩ := c'
      have : ((t, a) :: rest).getLast? = some (t', a') := by
        cases rest with
        | nil => simp at hr
        | cons d ds => simpa [List.getLast?_cons_cons] using hr
      rw [this]

/-- Single pending slot shared by every instance of a debounced class: both
decorators create the closure variable `timeoutId` once, when the decorator
runs, and the replacement method is shared by all instances, so the pending
timer records which instance (`ι`) scheduled it, but there is only one such
timer for the whole class.  Calls are `(time, instance, args)`; fires are
`(time, instance, args, result)` with the original invoked via the captured
`this`. -/
def DebounceSharedRun {ι α ρ : Type} (ms : Nat) (f : ι → α → ρ)
    (pending : Option (Nat × ι × α)) :
    List (Nat × ι × α) → List (Nat × ι × α × ρ)
  | [] =>
    match pending with
    | none => []
    | some (ft, j, pa) => [(ft, j, pa, f j pa)]
  | (t, i, a) :: rest =>
    match pending with
    | none => DebounceSharedRun ms f (some (t + ms, i, a)) rest
    | some (ft, j, pa) =>
      if ft ≤ t then
        (ft, j, pa, f j pa) :: DebounceSharedRun ms f (some (t + ms, i, a)) rest
      else
        DebounceSharedRun ms f (some (t + ms, i, a)) rest

/-- Shared-slot variant of `DebounceLegacyRun_cancel_chain`. -/
theorem DebounceSharedRun_cancel_chain {ι α ρ : Type} (ms : Nat)
    (f : ι → α → ρ) (tl : Nat) :
    ∀ (calls : List (Nat × ι × α)) (ft : Nat) (j : ι) (pa : α),
      (∀ c ∈ calls, c.1 ≤ tl) → tl < ft → (∀ c ∈ calls, tl < c.1 + ms) →
      DebounceSharedRun ms f (some (ft, j, pa)) calls =
        [match calls.getLast? with
         | none => (ft, j, pa, f j pa)
         | some (t, i, a) => (t + ms, i, a, f i a)] := by
  intro calls
  induction calls with
  | nil => intro ft j pa _ _ _; rfl
  | cons c rest ih =>
    intro ft j pa hle hft hms
    obtain ⟨t, i, a⟩ := c
    have ht : t ≤ tl := hle (t, i, a) (List.mem_cons_self _ _)
    have hcancel : ¬ ft ≤ t := by omega
    have hnew : tl < t + ms := hms (t, i, a) (List.mem_cons_self _ _)
    have hrest :
        DebounceSharedRun ms f (some (t + ms, i, a)) rest =
          [match rest.getLast? with
           | none => (t + ms, i, a, f i a)
           | some (t', i', a') => (t' + ms, i', a', f i' a')] :=
      ih (t + ms) i a (fun c hc => hle c (List.mem_cons_of_mem _ hc)) hnew
        (fun c hc => hms c (List.mem_cons_of_mem _ hc))
    rw [DebounceSharedRun, if_neg hcancel, hrest]
    cases hr : rest.getLast? with
    | none =>
      have : rest = [] := List.getLast?_eq_none_iff.mp hr
      subst this
      rfl
    | some c' =>
      obtain ⟨t', i', a'⟩ := c'
      have : ((t, i, a) :: rest).getLast? = some (t', i', a') := by
        cases rest with
        | nil => simp at hr
        | cons d ds => simpa [List.getLast?_cons_cons] using hr
      rw [this]

/-- C1: for both debounce wrappers with delay `ms` wrapping `f`, a nonempty,
chronologically ordered burst of calls whose every call lies within `ms` of
the last call time `tl` produces exactly one invocation of `f`: at time
`tl + ms` (hence at or after `tl + ms`), with the last call's arguments; no
superseded call's arguments are ever passed to `f`. -/
theorem debounceRapidCallsLastWins {α ρ : Type} (ms : Nat) (f : α → ρ)
    (pre : List (Nat × α)) (tl : Nat) (al : α) (calls : List (Nat × α))
    (hcalls : calls = pre ++ [(tl, al)])
    (hsorted : calls.Pairwise (fun c d => c.1 ≤ d.1))
    (hspan : ∀ c ∈ calls, tl < c.1 + ms) :
    DebounceLegacyRun ms f none calls = [(tl + ms, al, f al)] ∧
    DebounceRun ms f none calls = [(tl + ms, al, f al)] := by
  have hlegacy : DebounceLegacyRun ms f none calls = [(tl + ms, al, f al)] := by
    subst hcalls
    cases pre with
    | nil => rfl
    | cons c₀ pre' =>
      obtain ⟨t₀, a₀⟩ := c₀
      have hstep :
          DebounceLegacyRun ms f none (((t₀, a₀) :: pre') ++ [(tl, al)]) =
            DebounceLegacyRun ms f (some (t₀ + ms, a₀)) (pre' ++ [(tl, al)]) := rfl
      have hle : ∀ c ∈ pre' ++ [(tl, al)], c.1 ≤ tl := by
        intro c hc
        rcases List.mem_append.mp hc with h | h
        · have htail := hsorted.of_cons
          have := (List.pairwise_append.mp htail).2.2 c h (tl, al)
            (List.mem_singleton_self _)
          exact this
        · rw [List.mem_singleton.mp h]
      have hfirst : tl < t₀ + ms :=
        hspan (t₀, a₀) (List.mem_cons_self _ _)
      have hrest : ∀ c ∈ pre' ++ [(tl, al)], tl < c.1 + ms := fun c hc =>
        hspan c (List.mem_cons_of_mem _ hc)
      rw [hstep, DebounceLegacyRun_cancel_chain ms f tl _ _ _ hle hfirst hrest,
        List.getLast?_concat]
  exact ⟨hlegacy, (DebounceRun_eq_legacy ms f none calls).trans hlegacy⟩

/-- Witness for C1 at the spec's concrete scenario: delay 300, calls at
times 0, 10, 20 with "test1", "test2", "test3"; the wrapped `String.length`
fires once, at time 320, on "test3". -/
theorem debounceRapidCallsLastWins_witness :
    DebounceLegacyRun 300 String.length none
        [(0, "test1"), (10, "test2"), (20, "test3")] = [(320, "test3", 5)] ∧
    DebounceRun 300 String.length none
        [(0, "test1"), (10, "test2"), (20, "test3")] = [(320, "test3", 5)] :=
  debounceRapidCallsLastWins 300 String.length [(0, "test1"), (10, "test2")]
    20 "test3" [(0, "test1"), (10, "test2"), (20, "test3")] rfl
    (by decide) (by decide)

/-- C6: for both debounce wrappers, a single isolated call runs `f` exactly
once (a one-element fire list, so never twice), and two calls separated by
more than `ms` run `f` once per call, each with that call's own arguments. -/
theorem debounceIsolatedAndSpaced {α ρ : Type} (ms t₁ t₂ : Nat) (a₁ a₂ : α)
    (f : α → ρ) (hgap : t₁ + ms < t₂) :
    DebounceLegacyRun ms f none [(t₁, a₁)] = [(t₁ + ms, a₁, f a₁)] ∧
    DebounceRun ms f none [(t₁, a₁)] = [(t₁ + ms, a₁, f a₁)] ∧
    DebounceLegacyRun ms f none [(t₁, a₁), (t₂, a₂)] =
      [(t₁ + ms, a₁, f a₁), (t₂ + ms, a₂, f a₂)] ∧
    DebounceRun ms f none [(t₁, a₁), (t₂, a₂)] =
      [(t₁ + ms, a₁, f a₁), (t₂ + ms, a₂, f a₂)] := by
  have hfire : t₁ + ms ≤ t₂ := Nat.le_of_lt hgap
  refine ⟨rfl, rfl, ?_, ?_⟩
  · show DebounceLegacyRun ms f (some (t₁ + ms, a₁)) [(t₂, a₂)] = _
    rw [DebounceLegacyRun, if_pos hfire]
    rfl
  · show DebounceRun ms f (some (t₁ + ms, a₁)) [(t₂, a₂)] = _
    rw [DebounceRun, if_pos hfire]
    rfl

/-- Witness for C6: delay 300, isolated call at 0 and a second call at 301. -/
theorem debounceIsolatedAndSpaced_witness :
    DebounceLegacyRun 300 String.length none [(0, "a")] = [(300, "a", 1)] ∧
    DebounceRun 300 String.length none [(0, "a")] = [(300, "a", 1)] ∧
    DebounceLegacyRun 300 String.length none [(0, "a"), (301, "b")] =
      [(300, "a", 1), (601, "b", 1)] ∧
    DebounceRun 300 String.length none [(0, "a"), (301, "b")] =
      [(300, "a", 1), (601, "b", 1)] :=
  debounceIsolatedAndSpaced 300 0 301 "a" "b" String.length (by decide)

/-- C2 counterexample: with delay 300, instance 1 calls at time 0 and makes
no further call, so under the per-instance reading its operation should fire
(as the second conjunct shows it does when instance 1 is alone).  But a call
by instance 2 at time 50 clears the one shared `timeoutId`, and no fire for
instance 1 ever happens: the fire list of the two-call trace contains no
instance-1 entry. -/
theorem debouncePerInstanceCex :
    (DebounceSharedRun 300 (fun (i a : Nat) => i * 1000 + a) none
        [(0, 1, 10), (50, 2, 20)]).filter (fun e => e.2.1 == 1) = [] ∧
    DebounceSharedRun 300 (fun (i a : Nat) => i * 1000 + a) none
        [(0, 1, 10)] = [(300, 1, 10, 1010)] := by
  constructor
  · rfl
  · rfl

/-- C2 amended: each debounced method owns a single pending slot shared by
every instance of the class; any call within `ms` of a later call cancels the
pending invocation regardless of which instance scheduled it, so a rapid
cross-instance burst fires exactly once, for the overall-last call's instance
and arguments. -/
theorem debounceSharedSingleSlot {ι α ρ : Type} (ms : Nat) (f : ι → α → ρ)
    (pre : List (Nat × ι × α)) (tl : Nat) (il : ι) (al : α)
    (calls : List (Nat × ι × α))
    (hcalls : calls = pre ++ [(tl, il, al)])
    (hsorted : calls.Pairwise (fun c d => c.1 ≤ d.1))
    (hspan : ∀ c ∈ calls, tl < c.1 + ms) :
    DebounceSharedRun ms f none calls = [(tl + ms, il, al, f il al)] := by
  subst hcalls
  cases pre with
  | nil => rfl
  | cons c₀ pre' =>
    obtain ⟨t₀, i₀, a₀⟩ := c₀
    have hstep :
        DebounceSharedRun ms f none (((t₀, i₀, a₀) :: pre') ++ [(tl, il, al)]) =
          DebounceSharedRun ms f (some (t₀ + ms, i₀, a₀))
            (pre' ++ [(tl, il, al)]) := rfl
    have hle : ∀ c ∈ pre' ++ [(tl, il, al)], c.1 ≤ tl := by
      intro c hc
      rcases List.mem_append.mp hc with h | h
      · have htail := hsorted.of_cons
        exact (List.pairwise_append.mp htail).2.2 c h (tl, il, al)
          (List.mem_singleton_self _)
      · rw [List.mem_singleton.mp h]
    have hfirst : tl < t₀ + ms :=
      hspan (t₀, i₀, a₀) (List.mem_cons_self _ _)
    have hrest : ∀ c ∈ pre' ++ [(tl, il, al)], tl < c.1 + ms := fun c hc =>
      hspan c (List.mem_cons_of_mem _ hc)
    rw [hstep, DebounceSharedRun_cancel_chain ms f tl _ _ _ _ hle hfirst hrest,
      List.getLast?_concat]

/-- Witness for the amended C2 on the counterexample trace: the burst
`[(0, inst 1, 10), (50, inst 2, 20)]` fires exactly once, at time 350, for
instance 2 with its own arguments. -/
theorem debounceSharedSingleSlot_witness :
    DebounceSharedRun 300 (fun (i a : Nat) => i * 1000 + a) none
      [(0, 1, 10), (50, 2, 20)] = [(350, 2, 20, 2020)] :=
  debounceSharedSingleSlot 300 (fun (i a : Nat) => i * 1000 + a)
    [(0, 1, 10)] 50 2 20 [(0, 1, 10), (50, 2, 20)] rfl (by decide) (by decide)

/-- Synchronous behaviour of one call to the legacy debounce replacement
(src/unnamed/part_000 lines 7-12): the body runs `clearTimeout(timeoutId)`
(dropping whatever timer was pending) and assigns a fresh timer scheduled at
`t + ms` carrying this call's arguments, then falls off the end with no
`return` statement, so the caller receives `undefined` (`none`): the wrapped
operation's eventual result (of type `ρ`) is never what the wrapper returns. -/
def DebounceLegacyCall {α ρ : Type} (ms : Nat) (_pending : Option (Nat × α))
    (t : Nat) (args : α) : Option (Nat × α) × Option ρ :=
  (some (t + ms, args), none)

/-- Synchronous behaviour of one call to the new-API debounce replacement
(src/unnamed/part_001 lines 6-11): identical shape; the `return` inside the
`setTimeout` callback returns to the timer machinery, not to the caller, and
the replacement's own body has no `return` statement. -/
def DebounceCall {α ρ : Type} (ms : Nat) (_pending : Option (Nat × α))
    (t : Nat) (args : α) : Option (Nat × α) × Option ρ :=
  (some (t + ms, args), none)

/-- C5: both debounce wrappers return immediately with `undefined` on every
call, whatever the pending state, time, arguments, and result type of the
wrapped operation; in particular no value `r` the wrapped operation could
produce is ever the wrapper's return value. -/
theorem debounceReturnsUndefined {α ρ : Type} (ms t : Nat) (args : α)
    (p q : Option (Nat × α)) :
    (DebounceLegacyCall (ρ := ρ) ms p t args).2 = none ∧
    (DebounceCall (ρ := ρ) ms q t args).2 = none ∧
    (∀ r : ρ, (DebounceLegacyCall (ρ := ρ) ms p t args).2 ≠ some r) ∧
    (∀ r : ρ, (DebounceCall (ρ := ρ) ms q t args).2 ≠ some r) := by
  refine ⟨rfl, rfl, fun r h => ?_, fun r h => ?_⟩
  · exact Option.noConfusion h
  · exact Option.noConfusion h

/-- C3: for every original method `f`, every `this` binding and every
argument list, the `LogMethod` and `MeasureTime` replacements invoke the
captured original exactly once, with the identical `this` binding and
argument list, and return exactly the value the original returned. -/
theorem logMethodMeasureTimeForward {ι α ρ : Type} (n : String)
    (f : ι → α → ρ) (self : ι) (args : α) :
    (LogMethod n (instrument f) self args).2 = f self args ∧
    origCalls (LogMethod n (instrument f) self args).1 = [(self, args)] ∧
    (MeasureTime n (instrument f) self args).2 = f self args ∧
    origCalls (MeasureTime n (instrument f) self args).1 = [(self, args)] :=
  ⟨rfl, rfl, rfl, rfl⟩

/-- The body of `ExampleService.fetchData` (src/unnamed/part_002 lines
38-44): a pure busy loop followed by `return` of the formatted string. -/
def fetchDataBody (url : String) : String :=
  "Fetched from " ++ url

/-- The method `ExampleService.fetchData` as decorated with `@LogMethod`
`@MeasureTime`.  Decorators apply bottom-up: `MeasureTime` sees the original
body (and returns nothing, scheduling an initializer), then `LogMethod`
replaces the class method with its wrapper around the body.  At construction
the `MeasureTime` initializer captures `this[methodName]` — by then the
`LogMethod` wrapper — and shadows it with the timing wrapper, so a call runs
the timing wrapper around the logging wrapper around the body. -/
def fetchDataDecorated {ι α ρ : Type} (body : ι → α → ρ) :
    ι → α → List (MEv ι α) × ρ :=
  MeasureTime "fetchData" (LogMethod "fetchData" (instrument body))

/-- C10: stacking `LogMethod` and `MeasureTime` as on
`ExampleService.fetchData` executes the underlying body exactly once per
call and returns its value unchanged through both wrapper layers; in
particular the concrete `fetchData` body yields its formatted string. -/
theorem stackedDecoratorsSingleExecution {ι α ρ : Type} (body : ι → α → ρ)
    (self : ι) (args : α) :
    (fetchDataDecorated body self args).2 = body self args ∧
    origCalls (fetchDataDecorated body self args).1 = [(self, args)] ∧
    (fetchDataDecorated (fun (_ : Unit) u => fetchDataBody u) ()
        "https://api.example.com").2 =
      "Fetched from https://api.example.com" :=
  ⟨rfl, rfl, rfl⟩

/-- `Map.has`/`Map.get` over the association-list model of a `Map`. -/
def cacheGet {ρ : Type} : List (String × ρ) → String → Option ρ
  | [], _ => none
  | (k', v) :: rest, k => if k' = k then some v else cacheGet rest k

/-- `Map.set` over the association-list model of a `Map`. -/
def cacheSet {ρ : Type} : List (String × ρ) → String → ρ → List (String × ρ)
  | [], k, v => [(k, v)]
  | (k', v') :: rest, k, v =>
    if k' = k then (k, v) :: rest else (k', v') :: cacheSet rest k v

/-- Embedding of the `Cache` method decorator (src/unnamed/part_000 lines
259-272): serialize the arguments to a key; on a hit return the stored value
without touching the original; on a miss invoke the original once, store and
return its result.  The third component lists the invocations of the
original performed by this call. -/
def Cache {α ρ : Type} (serialize : α → String) (original : α → ρ)
    (cache : List (String × ρ)) (args : α) :
    List (String × ρ) × ρ × List α :=
  let cacheKey := serialize args
  match cacheGet cache cacheKey with
  | some v => (cache, v, [])
  | none =>
    let result := original args
    (cacheSet cache cacheKey result, result, [args])

/-- Embedding of `CacheResult` (src/unnamed/part_000 lines 313-324): same
shape, but the key is prefixed with the property key and the `Map` is a
module-level global shared by every decorated method. -/
def CacheResult {α ρ : Type} (propertyKey : String) (serialize : α → String)
    (original : α → ρ) (cache : List (String × ρ)) (args : α) :
    List (String × ρ) × ρ × List α :=
  let ckey := propertyKey ++ "-" ++ serialize args
  match cacheGet cache ckey with
  | some v => (cache, v, [])
  | none =>
    let res := original args
    (cacheSet cache ckey res, res, [args])

/-- C4: for both cache decorators, calling the wrapped operation twice (from
the fresh decoration-time table) with argument lists that serialize to the
same key invokes the underlying operation exactly once — on the first call —
and the second call performs no invocation and returns the memoized result
of the first. -/
theorem cacheMemoizes {α ρ : Type} (serialize : α → String) (f : α → ρ)
    (a₁ a₂ : α) (n : String) (h : serialize a₁ = serialize a₂) :
    (Cache serialize f [] a₁).2.2 = [a₁] ∧
    (Cache serialize f [] a₁).2.1 = f a₁ ∧
    (Cache serialize f (Cache serialize f [] a₁).1 a₂).2.2 = [] ∧
    (Cache serialize f (Cache serialize f [] a₁).1 a₂).2.1 = f a₁ ∧
    (CacheResult n serialize f [] a₁).2.2 = [a₁] ∧
    (CacheResult n serialize f [] a₁).2.1 = f a₁ ∧
    (CacheResult n serialize f (CacheResult n serialize f [] a₁).1 a₂).2.2
      = [] ∧
    (CacheResult n serialize f (CacheResult n serialize f [] a₁).1 a₂).2.1
      = f a₁ := by
  refine ⟨rfl, rfl, ?_, ?_, rfl, rfl, ?_, ?_⟩ <;>
    simp [Cache, CacheResult, cacheGet, cacheSet, h]

/-- Witness for C4 at serialize-equal arguments 3 and 3 under `toString`. -/
theorem cacheMemoizes_witness :
    (Cache (fun n : Nat => toString n) (fun n => n * n) [] 3).2.2 = [3] ∧
    (Cache (fun n : Nat => toString n) (fun n => n * n) [] 3).2.1 = 9 ∧
    (Cache (fun n : Nat => toString n) (fun n => n * n)
        (Cache (fun n : Nat => toString n) (fun n => n * n) [] 3).1 3).2.2
      = [] ∧
    (Cache (fun n : Nat => toString n) (fun n => n * n)
        (Cache (fun n : Nat => toString n) (fun n => n * n) [] 3).1 3).2.1
      = 9 ∧
    (CacheResult "fetchUser" (fun n : Nat => toString n) (fun n => n * n) []
        3).2.2 = [3] ∧
    (CacheResult "fetchUser" (fun n : Nat => toString n) (fun n => n * n) []
        3).2.1 = 9 ∧
    (CacheResult "fetchUser" (fun n : Nat => toString n) (fun n => n * n)
        (CacheResult "fetchUser" (fun n : Nat => toString n) (fun n => n * n)
          [] 3).1 3).2.2 = [] ∧
    (CacheResult "fetchUser" (fun n : Nat => toString n) (fun n => n * n)
        (CacheResult "fetchUser" (fun n : Nat => toString n) (fun n => n * n)
          [] 3).1 3).2.1 = 9 :=
  cacheMemoizes (fun n : Nat => toString n) (fun n => n * n) 3 3 "fetchUser"
    rfl

/-- Embedding of `RequirePermission` (src/unnamed/part_000 lines 289-301):
look up the permission service (modelled by `hasPermission`), throw
`Missing <permission>` when the named permission is absent, otherwise
forward to the original with the identical `this` binding and arguments and
return its result. -/
def RequirePermission {ι α ρ : Type} (hasPermission : String → Bool)
    (permission : String) (original : ι → α → ρ) (self : ι) (args : α) :
    Except String ρ :=
  if !(hasPermission permission) then
    Except.error ("Missing " ++ permission)
  else
    Except.ok (original self args)

/-- C7: the `RequirePermission` wrapper raises an error if and only if the
named permission is absent; when it is present the wrapper returns the
original method's result on the forwarded `this` binding and arguments. -/
theorem requirePermissionGate {ι α ρ : Type} (hasPermission : String → Bool)
    (p : String) (f : ι → α → ρ) (self : ι) (args : α) :
    ((∃ e, RequirePermission hasPermission p f self args = Except.error e) ↔
      hasPermission p = false) ∧
    (hasPermission p = true →
      RequirePermission hasPermission p f self args =
        Except.ok (f self args)) := by
  cases hp : hasPermission p <;> simp [RequirePermission, hp]

/-- Witness for C7: with only the admin permission granted, the wrapped
operation's result flows back to the caller. -/
theorem requirePermissionGate_witness :
    RequirePermission (fun s => s == "admin") "admin"
      (fun (_ : Unit) (n : Nat) => n + 1) () 3 = Except.ok 4 :=
  (requirePermissionGate (fun s => s == "admin") "admin"
    (fun (_ : Unit) (n : Nat) => n + 1) () 3).2 (by decide)

/-- Embedding of `LogClass` (src/decorators.ts lines 13-16): log one line and
return the received constructor unchanged. -/
def LogClass {κ : Type} (ctorName : String) (ctor : κ) : List String × κ :=
  (["[LogClass] Decorating: " ++ ctorName], ctor)

/-- Embedding of `LogProperty` (src/decorators.ts lines 26-29): log one line
and return the identity field initializer `(value) => value`. -/
def LogProperty {σ : Type} (propName : String) : List String × (σ → σ) :=
  (["[LogProperty] Property: " ++ propName], fun value => value)

/-- C9: `LogClass` returns exactly the constructor it received, and
`LogProperty` returns the identity initializer, so every initial field value
is preserved unchanged. -/
theorem logClassLogPropertyIdentity {κ σ : Type} (n m : String) (c : κ)
    (v : σ) :
    (LogClass n c).2 = c ∧ (LogProperty (σ := σ) m).2 v = v :=
  ⟨rfl, rfl⟩

/-- The value stored in one property of an `AutoUnsubscribe`-decorated
instance: a subscription-like value exposing an `unsubscribe` method, a
value without one, or `null`/`undefined`. -/
inductive PropVal where
  | subscription (tag : String)
  | plain (tag : String)
  | nullish
  deriving DecidableEq

/-- Teardown events: an `unsubscribe()` call on the named property, or a
step of the pre-existing `ngOnDestroy` body (tagged). -/
inductive DEv where
  | unsub (key : String)
  | destroyed (tag : String)
  deriving DecidableEq

/-- Effect of `this[k]?.unsubscribe?.()` on one walked property: the optional
chains skip nullish values and values without an `unsubscribe` method. -/
def unsubEventOf (kv : String × PropVal) : Option DEv :=
  match kv.2 with
  | PropVal.subscription _ => some (DEv.unsub kv.1)
  | PropVal.plain _ => none
  | PropVal.nullish => none

/-- Embedding of the `ngOnDestroy` replacement installed by `AutoUnsubscribe`
(src/unnamed/part_000 lines 357-365): walk the instance's properties `props`
in order, running `this[k]?.unsubscribe?.()` on each, then run
`originalDestroy?.apply(this)` — the teardown captured at decoration time,
modelled by its event trace (`[]` when absent). -/
def AutoUnsubscribeDestroy (props : List (String × PropVal))
    (originalDestroy : List DEv) : List DEv :=
  props.filterMap unsubEventOf ++ originalDestroy

/-- C8: the replacement teardown emits an `unsubscribe` for a property key
exactly when the walked properties hold a subscription-like value under that
key, and the whole teardown is those unsubscribes followed by the captured
pre-existing teardown — every unsubscribe happens before the original
teardown runs. -/
theorem autoUnsubscribeTeardown (props : List (String × PropVal))
    (orig : List DEv) :
    (∀ k, DEv.unsub k ∈ AutoUnsubscribeDestroy props [] ↔
      ∃ tag, (k, PropVal.subscription tag) ∈ props) ∧
    AutoUnsubscribeDestroy props orig =
      AutoUnsubscribeDestroy props [] ++ orig := by
  constructor
  · intro k
    rw [AutoUnsubscribeDestroy, List.append_nil, List.mem_filterMap]
    constructor
    · rintro ⟨⟨k', v⟩, hmem, hf⟩
      cases v with
      | subscription tag =>
        simp only [unsubEventOf, Option.some.injEq, DEv.unsub.injEq] at hf
        exact ⟨tag, hf ▸ hmem⟩
      | plain tag => simp [unsubEventOf] at hf
      | nullish => simp [unsubEventOf] at hf
    · rintro ⟨tag, hmem⟩
      exact ⟨(k, PropVal.subscription tag), hmem, rfl⟩
  · rw [AutoUnsubscribeDestroy, AutoUnsubscribeDestroy, List.append_nil]

end Decorators
